import Mathlib

/-!
Verification of the lexer-io-perf repository (src/lib.rs): a single-pass
tokenizer (`Lexer`) generic over pull-based byte sources, and three byte
source strategies (`ByteReader`, `BufferedReader`, `MMapReader`).

Embedding conventions:
* Bytes are `Nat` values (the readers only ever yield values below 256,
  and the lexer's classification predicates are total on `Nat`).
* A Rust iterator of bytes is embedded as a state machine
  `next : sigma -> Option Nat x sigma` (the yielded value and the mutated
  state); the lexer, which consumes a `Peekable` deterministic iterator,
  is embedded over the list of bytes the iterator yields, with `peek` as
  the list head and consumption as dropping the head.
* The panic on 64-bit signed integer overflow (`.parse().unwrap()`) is a
  distinguished `LexStep.panic` outcome, separate from `eos` (`None`).
-/

namespace LexPerf

/-- `u8::is_ascii_alphabetic` from the Rust standard library. -/
def isAsciiAlphabetic (b : Nat) : Bool :=
  decide ((65 ≤ b ∧ b ≤ 90) ∨ (97 ≤ b ∧ b ≤ 122))

/-- `u8::is_ascii_digit` from the Rust standard library. -/
def isAsciiDigit (b : Nat) : Bool :=
  decide (48 ≤ b ∧ b ≤ 57)

/-- `u8::is_ascii_alphanumeric` from the Rust standard library. -/
def isAsciiAlphanumeric (b : Nat) : Bool :=
  isAsciiAlphabetic b || isAsciiDigit b

/-- `u8::is_ascii_whitespace`: space, tab, newline, form feed, carriage return. -/
def isAsciiWhitespace (b : Nat) : Bool :=
  decide (b = 32 ∨ b = 9 ∨ b = 10 ∨ b = 12 ∨ b = 13)

/-- The guard of the identifier branch: `x.is_ascii_alphabetic() || x == b'_'`. -/
def isIdentStart (b : Nat) : Bool :=
  isAsciiAlphabetic b || b == 95

/-- The guard of the identifier continuation loop:
`ch.is_ascii_alphanumeric() || ch == b'_'`. -/
def isIdentCont (b : Nat) : Bool :=
  isAsciiAlphanumeric b || b == 95

/-- `Token` from src/lib.rs. `Identifier` carries the accumulated bytes (the
Rust code stores them as a `String` via an unchecked UTF-8 conversion);
`Number` carries the parsed 64-bit signed integer value. -/
inductive Token where
  | Identifier (s : List Nat)
  | Number (n : Int)
deriving DecidableEq

/-- Outcome of one `Lexer::next` call: a token (`Some(tok)`), a clean
end-of-sequence (`None`), or the panic raised by `.parse().unwrap()` on
numeric overflow. -/
inductive LexStep where
  | eos
  | panic
  | tok (t : Token)
deriving DecidableEq

/-- Result of draining the lexer to exhaustion: either the finite token list
(ending in `None`), or the tokens emitted before a panic aborted the run. -/
inductive LexOutput where
  | ok (toks : List Token)
  | aborted (toks : List Token)
deriving DecidableEq

/-- The maximum value of Rust's `i64`, `2^63 - 1`. -/
def i64Max : Nat := 9223372036854775807

/-- Base-10 value of a run of ASCII digit bytes, as accumulated left to
right. -/
def digitsToNat (l : List Nat) : Nat :=
  l.foldl (fun a b => a * 10 + (b - 48)) 0

/-- `str::parse::<i64>` on a nonempty all-digit string: the base-10 value if
it is representable in a 64-bit signed integer, otherwise an overflow error
(`none`). -/
def parseI64 (l : List Nat) : Option Int :=
  if digitsToNat l ≤ i64Max then some (Int.ofNat (digitsToNat l)) else none

/-- The `while let Some(&ch) = self.inner.peek()` accumulation loop shared by
the identifier and number branches of `Lexer::next`: consume bytes while the
peeked byte satisfies `p`, returning the accumulated run and the unconsumed
remainder. -/
def spanLoop (p : Nat → Bool) : List Nat → List Nat × List Nat
  | [] => ([], [])
  | c :: cs =>
    if p c then
      let r := spanLoop p cs
      (c :: r.1, r.2)
    else ([], c :: cs)

/-- `Lexer::next` from src/lib.rs, over the remaining byte stream. Returns
the step outcome and the stream left unconsumed (a peeked but unconsumed
byte stays at the head). -/
def Lexer.next : List Nat → LexStep × List Nat
  | [] => (.eos, [])
  | b :: rest =>
    if isIdentStart b then
      let r := spanLoop isIdentCont rest
      (.tok (.Identifier (b :: r.1)), r.2)
    else if isAsciiDigit b then
      let r := spanLoop isAsciiDigit rest
      match parseI64 (b :: r.1) with
      | some v => (.tok (.Number v), r.2)
      | none => (.panic, r.2)
    else if isAsciiWhitespace b then
      Lexer.next rest
    else
      (.eos, b :: rest)

/-- Draining the lexer: the `collect::<Vec<_>>()` of the test harness.
Repeats `Lexer::next` until `None` (`ok`) or until the overflow panic
(`aborted`). -/
def lexAll (l : List Nat) : LexOutput :=
  match h : Lexer.next l with
  | (.eos, _) => .ok []
  | (.panic, _) => .aborted []
  | (.tok t, rest) =>
    match lexAll rest with
    | .ok ts => .ok (t :: ts)
    | .aborted ts => .aborted (t :: ts)
termination_by l.length
decreasing_by
  have hspan : ∀ (p : Nat → Bool) (m : List Nat),
      (spanLoop p m).2.length ≤ m.length := by
    intro p m
    induction m with
    | nil => simp [spanLoop]
    | cons c cs ih =>
      simp only [spanLoop]
      cases hc : p c <;> simp_all
      omega
  have key : ∀ (m : List Nat) (t : Token) (r : List Nat),
      Lexer.next m = (.tok t, r) → r.length < m.length := by
    intro m
    induction m with
    | nil => intro t r hm; simp [Lexer.next] at hm
    | cons b bs ih =>
      intro t r hm
      simp only [Lexer.next] at hm
      split at hm
      · have hr := hspan isIdentCont bs
        cases hm
        simp only [List.length_cons]
        omega
      · split at hm
        · split at hm
          · have hr := hspan isAsciiDigit bs
            cases hm
            simp only [List.length_cons]
            omega
          · cases hm
        · split at hm
          · have := ih t r hm
            simp only [List.length_cons]
            omega
          · cases hm
  exact key l t rest h

/-! ## Byte sources -/

/-- Result of one `std::io::Read::read`-style request against an underlying
resource: an I/O error, or some bytes obtained (possibly fewer than
requested; zero bytes means end of file). Both outcomes carry the resource's
successor state. -/
inductive ReadResult (ρ : Type) where
  | err (r' : ρ)
  | ok (out : List Nat) (r' : ρ)

/-- A read model is well formed when a request for `n` bytes never yields
more than `n` bytes (the `Read` contract: at most the buffer is filled). -/
def ReadWF {ρ : Type} (read : ρ → Nat → ReadResult ρ) : Prop :=
  ∀ r n out r', read r n = .ok out r' → out.length ≤ n

/-- The resource backing the test files: in-memory content served
sequentially, every request fully satisfied up to end of file and never
failing. State is the remaining content. -/
def fileRead (r : List Nat) (n : Nat) : ReadResult (List Nat) :=
  .ok (r.take n) (r.drop n)

/-- `ByteReader::next` from src/lib.rs: `read_exact` into a one-byte buffer.
For a single byte this issues one read request of length 1; an error or zero
bytes obtained collapses to `None`, otherwise the byte obtained is yielded. -/
def ByteReader.next {ρ : Type} (read : ρ → Nat → ReadResult ρ) (r : ρ) :
    Option Nat × ρ :=
  match read r 1 with
  | .err r' => (none, r')
  | .ok [] r' => (none, r')
  | .ok (b :: _) r' => (some b, r')

/-- `BufferedReader` state from src/lib.rs: the remaining underlying
resource, the borrowed buffer's current contents, the cursor `offset` and
the valid-byte count `remainder`. -/
structure BufState (ρ : Type) where
  inner : ρ
  buffer : List Nat
  offset : Nat
  remainder : Nat

/-- `BufferedReader::new`: cursor and valid count start at zero; the
caller-supplied buffer's initial contents are arbitrary (`make_box` leaves
them uninitialized). -/
def BufferedReader.new {ρ : Type} (inner : ρ) (buffer : List Nat) :
    BufState ρ :=
  { inner := inner, buffer := buffer, offset := 0, remainder := 0 }

/-- `BufferedReader::refill_buffer`: one read request for the whole buffer
length; an error or zero bytes is `None`, otherwise the obtained bytes
overwrite the buffer's prefix, the cursor resets to 0 and the valid count
becomes the number of bytes obtained. -/
def BufferedReader.refill {ρ : Type} (read : ρ → Nat → ReadResult ρ)
    (s : BufState ρ) : Option Unit × BufState ρ :=
  match read s.inner s.buffer.length with
  | .err r' => (none, { s with inner := r' })
  | .ok [] r' => (none, { s with inner := r' })
  | .ok (b :: bs) r' =>
    (some (), { inner := r',
                buffer := (b :: bs) ++ s.buffer.drop (b :: bs).length,
                offset := 0,
                remainder := (b :: bs).length })

/-- Serving step of `BufferedReader::next`: yield the buffer byte at the
cursor (`get_unchecked(offset)`) and advance the cursor. -/
def BufferedReader.serve {ρ : Type} (s : BufState ρ) : Option Nat × BufState ρ :=
  (some (s.buffer.getD s.offset 0), { s with offset := s.offset + 1 })

/-- `BufferedReader::next` from src/lib.rs: refill when the cursor has
reached the valid count (propagating `None` on a failed refill), then serve
the byte at the cursor. -/
def BufferedReader.next {ρ : Type} (read : ρ → Nat → ReadResult ρ)
    (s : BufState ρ) : Option Nat × BufState ρ :=
  if s.offset = s.remainder then
    match BufferedReader.refill read s with
    | (none, s') => (none, s')
    | (some _, s') => BufferedReader.serve s'
  else
    BufferedReader.serve s

/-- The documented invariant of the buffered source:
`0 <= offset <= validLength (remainder) <= bufferLength` (the lower bound
is automatic over `Nat`). -/
def BufInv {ρ : Type} (s : BufState ρ) : Prop :=
  s.offset ≤ s.remainder ∧ s.remainder ≤ s.buffer.length

/-- `MMapReader` state from src/lib.rs: the mapped region's contents and the
cursor, as an index into the region (`ptr = base + pos`, `end = base + len`). -/
structure MMapState where
  data : List Nat
  pos : Nat

/-- `MMapReader::new`: cursor at the start of the mapping. -/
def MMapReader.new (data : List Nat) : MMapState :=
  { data := data, pos := 0 }

/-- `MMapReader::next` from src/lib.rs: while `ptr < end`, yield the byte at
the cursor and advance it; otherwise `None`. -/
def MMapReader.next (s : MMapState) : Option Nat × MMapState :=
  if s.pos < s.data.length then
    (some (s.data.getD s.pos 0), { s with pos := s.pos + 1 })
  else
    (none, s)

/-- The byte sequence an iterator yields before its first `None`, up to
`fuel` pulls (every source below is given enough fuel to drain). -/
def streamOf {σ : Type} (next : σ → Option Nat × σ) : Nat → σ → List Nat
  | 0, _ => []
  | fuel + 1, s =>
    match next s with
    | (none, _) => []
    | (some b, s') => b :: streamOf next fuel s'

/-- All bytes `ByteReader` yields over a file holding `l`. -/
def byteStream (l : List Nat) : List Nat :=
  streamOf (ByteReader.next fileRead) (l.length + 1) l

/-- All bytes `BufferedReader` yields over a file holding `l`, through the
caller-supplied buffer `buf`. -/
def bufferedStream (buf l : List Nat) : List Nat :=
  streamOf (BufferedReader.next fileRead) (l.length + 1)
    (BufferedReader.new l buf)

/-- All bytes `MMapReader` yields over a mapping holding `l`. -/
def mmapStream (l : List Nat) : List Nat :=
  streamOf MMapReader.next (l.length + 1) (MMapReader.new l)

/-- The bytes a `BufferedReader` state still has to deliver: the valid,
unserved part of the buffer followed by the remaining file content. -/
def bufPending (s : BufState (List Nat)) : List Nat :=
  (s.buffer.drop s.offset).take (s.remainder - s.offset) ++ s.inner

/-- State of the UTF-8 validating automaton: how many continuation bytes
are still expected, and the allowed range for the next byte when at least
one is expected (after the first continuation byte the range is always
`0x80 ..= 0xBF`). -/
structure Utf8S where
  need : Nat
  lo : Nat
  hi : Nat

/-- Classification of a UTF-8 leading byte per RFC 3629: how many
continuation bytes follow and the constrained range of the first one
(ruling out overlong encodings and surrogates); `none` for an invalid
leading byte. -/
def utf8Start (b : Nat) : Option Utf8S :=
  if b ≤ 127 then some ⟨0, 0, 0⟩
  else if 194 ≤ b ∧ b ≤ 223 then some ⟨1, 128, 191⟩
  else if b = 224 then some ⟨2, 160, 191⟩
  else if 225 ≤ b ∧ b ≤ 236 then some ⟨2, 128, 191⟩
  else if b = 237 then some ⟨2, 128, 159⟩
  else if 238 ≤ b ∧ b ≤ 239 then some ⟨2, 128, 191⟩
  else if b = 240 then some ⟨3, 144, 191⟩
  else if 241 ≤ b ∧ b ≤ 243 then some ⟨3, 128, 191⟩
  else if b = 244 then some ⟨3, 128, 143⟩
  else none

/-- Run of the UTF-8 validating automaton: accept at a sequence boundary
with no bytes left; reject on a truncated sequence, an invalid leading byte
or an out-of-range continuation byte. -/
def validUtf8From : Utf8S → List Nat → Bool
  | ⟨0, _, _⟩, [] => true
  | ⟨_ + 1, _, _⟩, [] => false
  | ⟨0, _, _⟩, b :: rest =>
    match utf8Start b with
    | none => false
    | some st => validUtf8From st rest
  | ⟨k + 1, lo, hi⟩, c :: rest =>
    if lo ≤ c ∧ c ≤ hi then validUtf8From ⟨k, 128, 191⟩ rest else false

/-- Validity of a byte sequence as UTF-8 (RFC 3629 well-formed sequences,
the check Rust's `String::from_utf8` performs and
`String::from_utf8_unchecked` skips). -/
def validUtf8 (l : List Nat) : Bool :=
  validUtf8From ⟨0, 0, 0⟩ l

/-! ## Lexer step lemmas -/

theorem spanLoop_eq (p : Nat → Bool) (l : List Nat) :
    spanLoop p l = (l.takeWhile p, l.dropWhile p) := by
  induction l with
  | nil => rfl
  | cons c cs ih =>
    simp only [spanLoop, List.takeWhile, List.dropWhile]
    cases h : p c <;> simp [ih]

theorem lexAll_eos {l r : List Nat} (h : Lexer.next l = (.eos, r)) :
    lexAll l = .ok [] := by
  rw [lexAll.eq_def]
  split <;> simp_all

theorem lexAll_panic {l r : List Nat} (h : Lexer.next l = (.panic, r)) :
    lexAll l = .aborted [] := by
  rw [lexAll.eq_def]
  split <;> simp_all

theorem lexAll_tok {l rest : List Nat} {t : Token}
    (h : Lexer.next l = (.tok t, rest)) :
    lexAll l = match lexAll rest with
      | .ok ts => .ok (t :: ts)
      | .aborted ts => .aborted (t :: ts) := by
  rw [lexAll.eq_def]
  split <;> simp_all

/-! ## Stream lemmas -/

theorem byteStream_eq (l : List Nat) : byteStream l = l := by
  unfold byteStream
  induction l with
  | nil => rfl
  | cons b bs ih =>
    simp only [streamOf, ByteReader.next, fileRead, List.take, List.drop,
      List.length_cons]
    exact congrArg (b :: ·) ih

theorem bufferedStream_aux (fuel : Nat) :
    ∀ s : BufState (List Nat), s.offset ≤ s.remainder →
    s.remainder ≤ s.buffer.length → 1 ≤ s.buffer.length →
    (s.remainder - s.offset) + s.inner.length < fuel →
    streamOf (BufferedReader.next fileRead) fuel s = bufPending s := by
  induction fuel with
  | zero => intro s _ _ _ hf; omega
  | succ fuel ih =>
    rintro ⟨inner, buffer, offset, remainder⟩ h1 h2 h3 hf
    simp only at h1 h2 h3 hf
    obtain ⟨m, hm⟩ : ∃ m, buffer.length = m + 1 := ⟨buffer.length - 1, by omega⟩
    by_cases ho : offset = remainder
    · subst ho
      cases inner with
      | nil =>
        simp [streamOf, BufferedReader.next, BufferedReader.refill, fileRead,
          bufPending]
      | cons x t =>
        simp only [streamOf, BufferedReader.next, if_pos rfl,
          BufferedReader.refill, fileRead, hm, List.take_succ_cons,
          List.drop_succ_cons, BufferedReader.serve, if_true]
        rw [ih]
        · simp only [bufPending, List.length_cons, Nat.add_sub_cancel,
            List.getD, List.get?_cons_zero, Option.getD_some, Nat.zero_add,
            List.drop_one, List.tail_cons, Nat.sub_self, List.take_zero,
            List.nil_append, List.cons_append]
          rw [List.take_left, List.take_append_drop]
        · simp
        · simp only [List.length_append, List.length_cons, List.length_drop]
          omega
        · simp only [List.length_append, List.length_cons, List.length_drop]
          omega
        · simp only [List.length_drop, List.length_take, List.length_cons]
          simp only [List.length_cons] at hf
          omega
    · have hlt : offset < remainder := by omega
      have hob : offset < buffer.length := by omega
      simp only [streamOf, BufferedReader.next, if_neg ho,
        BufferedReader.serve]
      rw [ih]
      · simp only [bufPending]
        rw [List.drop_eq_getElem_cons hob]
        have hro : remainder - offset = (remainder - (offset + 1)) + 1 := by
          omega
        rw [hro, List.take_succ_cons]
        simp [List.getD, List.getElem?_eq_getElem hob]
      · simpa using hlt
      · simpa using h2
      · simpa using h3
      · simp only
        omega

theorem bufferedStream_eq (buf l : List Nat) (h : 1 ≤ buf.length) :
    bufferedStream buf l = l := by
  unfold bufferedStream BufferedReader.new
  rw [bufferedStream_aux (l.length + 1) _ (by simp) (by simpa using h)
    (by simpa using h) (by simp)]
  simp [bufPending]

theorem mmapStream_aux (fuel : Nat) (data : List Nat) (pos : Nat)
    (h : data.length - pos < fuel) :
    streamOf MMapReader.next fuel { data := data, pos := pos } =
      data.drop pos := by
  induction fuel generalizing pos with
  | zero => omega
  | succ fuel ih =>
    simp only [streamOf, MMapReader.next]
    by_cases hp : pos < data.length
    · simp only [hp, if_true]
      rw [ih (pos + 1) (by omega), List.drop_eq_getElem_cons hp]
      simp [List.getD, List.getElem?_eq_getElem hp]
    · simp only [hp, if_false]
      rw [List.drop_eq_nil_of_le (by omega)]

theorem mmapStream_eq (l : List Nat) : mmapStream l = l := by
  unfold mmapStream MMapReader.new
  rw [mmapStream_aux (l.length + 1) l 0 (by omega)]
  exact List.drop_zero l

/-! ## Helper lemmas -/

theorem dropWhile_head_not (p : Nat → Bool) (l : List Nat) :
    ∀ c, (l.dropWhile p).head? = some c → p c = false := by
  induction l with
  | nil => simp
  | cons b bs ih =>
    intro c hc
    rw [List.dropWhile_cons] at hc
    by_cases hb : p b = true
    · exact ih c (by simpa [hb] using hc)
    · have hbc : b = c := by simpa [hb] using hc
      subst hbc
      simpa using hb

theorem spanLoop_all_append (p : Nat → Bool) (xs ys : List Nat)
    (hx : ∀ c ∈ xs, p c = true)
    (hy : ∀ c, ys.head? = some c → p c = false) :
    spanLoop p (xs ++ ys) = (xs, ys) := by
  induction xs with
  | nil =>
    cases ys with
    | nil => rfl
    | cons y t =>
      have := hy y (by simp)
      simp [spanLoop, this]
  | cons x xs ih =>
    have hpx : p x = true := hx x (by simp)
    simp only [List.cons_append, spanLoop, hpx, if_true, List.append_eq]
    rw [ih (fun c hc => hx c (by simp [hc]))]

theorem digit_not_identStart {b : Nat} (h : isAsciiDigit b = true) :
    isIdentStart b = false := by
  simp only [isAsciiDigit, decide_eq_true_eq] at h
  simp only [isIdentStart, isAsciiAlphabetic, Bool.or_eq_false_iff,
    decide_eq_false_iff_not, beq_eq_false_iff_ne, ne_eq]
  omega

theorem identStart_identCont {b : Nat} (h : isIdentStart b = true) :
    isIdentCont b = true := by
  simp only [isIdentStart, isAsciiAlphabetic, Bool.or_eq_true,
    decide_eq_true_eq, beq_iff_eq] at h
  simp only [isIdentCont, isAsciiAlphanumeric, isAsciiAlphabetic,
    isAsciiDigit, Bool.or_eq_true, decide_eq_true_eq, beq_iff_eq]
  rcases h with h | h
  · exact Or.inl (Or.inl h)
  · exact Or.inr h

theorem identCont_lt_128 {b : Nat} (h : isIdentCont b = true) : b < 128 := by
  simp only [isIdentCont, isAsciiAlphanumeric, isAsciiAlphabetic,
    isAsciiDigit, Bool.or_eq_true, decide_eq_true_eq, beq_iff_eq] at h
  omega

theorem validUtf8_of_ascii (l : List Nat) (h : ∀ c ∈ l, c < 128) :
    validUtf8 l = true := by
  unfold validUtf8
  induction l with
  | nil => rfl
  | cons b bs ih =>
    have hb : b ≤ 127 := by
      have := h b (by simp)
      omega
    simp only [validUtf8From, utf8Start, if_pos hb]
    exact ih (fun c hc => h c (by simp [hc]))

theorem fileRead_wf : ReadWF fileRead := by
  intro r n out r' h
  injection h with h1 h2
  rw [← h1]
  simpa using Nat.min_le_left n r.length

theorem lexNext_eos_absorb {l rest : List Nat}
    (h : Lexer.next l = (.eos, rest)) : Lexer.next rest = (.eos, rest) := by
  induction l with
  | nil =>
    have hr : rest = [] := by
      simpa [Lexer.next, Prod.ext_iff] using h
    subst hr
    rfl
  | cons b bs ih =>
    simp only [Lexer.next] at h
    split at h
    · simp at h
    · split at h
      · split at h <;> simp at h
      · split at h
        · exact ih h
        · rename_i hna hnb hnc
          have hr : rest = b :: bs := by
            simpa [Prod.ext_iff] using h.symm
          subst hr
          simp only [Lexer.next]
          rw [if_neg hna, if_neg hnb, if_neg hnc]

/-! ## Claims -/

/-- C1. Source transparency: for every fixed input content, tokenizing via
the Direct (`ByteReader`), the Buffered (`BufferedReader`, any buffer of
capacity at least 1), or the Memory-Mapped (`MMapReader`) source produces
exactly the same token sequence. -/
theorem source_transparency (l buf : List Nat) (hc : 1 ≤ buf.length) :
    lexAll (byteStream l) = lexAll (mmapStream l)
    ∧ lexAll (bufferedStream buf l) = lexAll (mmapStream l) := by
  rw [byteStream_eq, mmapStream_eq, bufferedStream_eq buf l hc]
  exact ⟨rfl, rfl⟩

theorem source_transparency_witness :
    lexAll (byteStream [97, 32, 49]) = lexAll (mmapStream [97, 32, 49])
    ∧ lexAll (bufferedStream [0, 0] [97, 32, 49]) =
        lexAll (mmapStream [97, 32, 49]) :=
  source_transparency [97, 32, 49] [0, 0] (by decide)

/-- C2. Numeric overflow is fatal: positioned at a maximal ASCII digit run,
if the run's base-10 value exceeds `i64::MAX` the lexer panics (no `Number`
token, no error token, no clean end: draining yields `aborted`), and if the
value fits it emits `Number` holding exactly that value. -/
theorem number_overflow_fatal (ds rest : List Nat) (hne : ds ≠ [])
    (hds : ∀ b ∈ ds, isAsciiDigit b = true)
    (hrest : ∀ c, rest.head? = some c → isAsciiDigit c = false) :
    (i64Max < digitsToNat ds →
      Lexer.next (ds ++ rest) = (.panic, rest)
      ∧ lexAll (ds ++ rest) = .aborted [])
    ∧ (digitsToNat ds ≤ i64Max →
      Lexer.next (ds ++ rest) =
        (.tok (.Number (Int.ofNat (digitsToNat ds))), rest)) := by
  obtain ⟨d, ds', rfl⟩ : ∃ d ds', ds = d :: ds' := by
    cases ds with
    | nil => exact absurd rfl hne
    | cons d ds' => exact ⟨d, ds', rfl⟩
  have hd : isAsciiDigit d = true := hds d (by simp)
  have hid : isIdentStart d = false := digit_not_identStart hd
  have hspan : spanLoop isAsciiDigit (ds' ++ rest) = (ds', rest) :=
    spanLoop_all_append _ _ _ (fun c hc => hds c (by simp [hc])) hrest
  have hnext0 : Lexer.next ((d :: ds') ++ rest) =
      (match parseI64 (d :: ds') with
        | some v => (.tok (.Number v), rest)
        | none => (.panic, rest)) := by
    simp only [List.cons_append, Lexer.next]
    rw [if_neg (by simp [hid]), if_pos hd]
    simp only [List.append_eq, hspan]
  constructor
  · intro hov
    have hp : parseI64 (d :: ds') = none := by
      rw [parseI64, if_neg (by omega)]
    rw [hp] at hnext0
    exact ⟨hnext0, lexAll_panic hnext0⟩
  · intro hle
    have hp : parseI64 (d :: ds') =
        some (Int.ofNat (digitsToNat (d :: ds'))) := by
      rw [parseI64, if_pos hle]
    rw [hp] at hnext0
    exact hnext0

theorem number_overflow_fatal_witness :
    (i64Max < digitsToNat [57, 50, 50, 51, 51, 55, 50, 48, 51, 54, 56, 53,
        52, 55, 55, 53, 56, 48, 56] →
      Lexer.next ([57, 50, 50, 51, 51, 55, 50, 48, 51, 54, 56, 53, 52, 55,
          55, 53, 56, 48, 56] ++ [32]) =
        (.panic, [32])
      ∧ lexAll ([57, 50, 50, 51, 51, 55, 50, 48, 51, 54, 56, 53, 52, 55,
          55, 53, 56, 48, 56] ++ [32]) = .aborted [])
    ∧ (digitsToNat [57, 50, 50, 51, 51, 55, 50, 48, 51, 54, 56, 53, 52, 55,
        55, 53, 56, 48, 56] ≤ i64Max →
      Lexer.next ([57, 50, 50, 51, 51, 55, 50, 48, 51, 54, 56, 53, 52, 55,
          55, 53, 56, 48, 56] ++ [32]) =
        (.tok (.Number (Int.ofNat (digitsToNat [57, 50, 50, 51, 51, 55, 50,
          48, 51, 54, 56, 53, 52, 55, 55, 53, 56, 48, 56]))), [32])) :=
  number_overflow_fatal
    [57, 50, 50, 51, 51, 55, 50, 48, 51, 54, 56, 53, 52, 55, 55, 53, 56,
      48, 56] [32]
    (by decide) (by decide)
    (by
      intro c hc
      have : c = 32 := by simpa using hc.symm
      subst this
      decide)

/-- C3. An unrecognized byte (not a letter, digit, underscore or ASCII
whitespace) at the head of the stream makes `Lexer::next` return `None`
immediately, consumes nothing (the stream state keeps that byte and all
following ones), and the drained token sequence from that point is empty. -/
theorem unrecognized_byte_truncates (b : Nat) (rest : List Nat)
    (h1 : isAsciiAlphabetic b = false) (h2 : b ≠ 95)
    (h3 : isAsciiDigit b = false) (h4 : isAsciiWhitespace b = false) :
    Lexer.next (b :: rest) = (.eos, b :: rest)
    ∧ lexAll (b :: rest) = .ok [] := by
  have hs : isIdentStart b = false := by
    simp [isIdentStart, h1, h2]
  have hnext : Lexer.next (b :: rest) = (.eos, b :: rest) := by
    simp [Lexer.next, hs, h3, h4]
  exact ⟨hnext, lexAll_eos hnext⟩

theorem unrecognized_byte_truncates_witness :
    Lexer.next (64 :: [99, 100]) = (.eos, 64 :: [99, 100])
    ∧ lexAll (64 :: [99, 100]) = .ok [] :=
  unrecognized_byte_truncates 64 [99, 100] (by decide) (by decide)
    (by decide) (by decide)

/-- C4. Identifier branch: at a letter or underscore, `Lexer::next` consumes
the maximal run of letters, digits and underscores, emits a single
`Identifier` holding exactly those bytes, leaves the first byte after the
run (if any) unconsumed and outside the class, and an input ending mid-run
still yields the trailing run as a complete final token. -/
theorem identifier_maximal_run (b : Nat) (rest : List Nat)
    (h : isIdentStart b = true) :
    Lexer.next (b :: rest) =
      (.tok (.Identifier (b :: rest.takeWhile isIdentCont)),
        rest.dropWhile isIdentCont)
    ∧ (∀ c ∈ rest.takeWhile isIdentCont, isIdentCont c = true)
    ∧ (∀ c, (rest.dropWhile isIdentCont).head? = some c →
        isIdentCont c = false)
    ∧ ((∀ c ∈ rest, isIdentCont c = true) →
        lexAll (b :: rest) = .ok [.Identifier (b :: rest)]) := by
  have hnext : Lexer.next (b :: rest) =
      (.tok (.Identifier (b :: rest.takeWhile isIdentCont)),
        rest.dropWhile isIdentCont) := by
    simp [Lexer.next, h, spanLoop_eq]
  refine ⟨hnext, fun c hc => List.mem_takeWhile_imp hc,
    dropWhile_head_not isIdentCont rest, fun hall => ?_⟩
  have htake : rest.takeWhile isIdentCont = rest :=
    List.takeWhile_eq_self_iff.mpr hall
  have hdrop : rest.dropWhile isIdentCont = [] :=
    List.dropWhile_eq_nil_iff.mpr hall
  rw [htake, hdrop] at hnext
  rw [lexAll_tok hnext, lexAll_eos (show Lexer.next [] = (.eos, []) from rfl)]

theorem identifier_maximal_run_witness :
    Lexer.next (95 :: [120, 57, 64]) =
      (.tok (.Identifier (95 :: [120, 57, 64].takeWhile isIdentCont)),
        [120, 57, 64].dropWhile isIdentCont)
    ∧ (∀ c ∈ [120, 57, 64].takeWhile isIdentCont, isIdentCont c = true)
    ∧ (∀ c, ([120, 57, 64].dropWhile isIdentCont).head? = some c →
        isIdentCont c = false)
    ∧ ((∀ c ∈ [120, 57, 64], isIdentCont c = true) →
        lexAll (95 :: [120, 57, 64]) =
          .ok [.Identifier (95 :: [120, 57, 64])]) :=
  identifier_maximal_run 95 [120, 57, 64] (by decide)

/-- C5. The Direct source issues exactly one minimal (single-byte) read
request per pull: `ByteReader::next` yields a byte exactly when that one
request obtained exactly that byte, and yields `None` exactly when the
request failed or obtained zero bytes. -/
theorem byte_reader_single_request {ρ : Type}
    (read : ρ → Nat → ReadResult ρ) (hwf : ReadWF read) (r : ρ) :
    (∀ b r', ByteReader.next read r = (some b, r') ↔ read r 1 = .ok [b] r')
    ∧ ((ByteReader.next read r).1 = none ↔
        (∃ r', read r 1 = .err r') ∨ (∃ r', read r 1 = .ok [] r')) := by
  cases h : read r 1 with
  | err r1 =>
    constructor
    · intro b r'
      simp [ByteReader.next, h]
    · simp [ByteReader.next, h]
  | ok out r1 =>
    cases out with
    | nil =>
      constructor
      · intro b r'
        simp [ByteReader.next, h]
      · simp [ByteReader.next, h]
    | cons b0 bs =>
      have hb : bs = [] := by
        have hlen := hwf r 1 (b0 :: bs) r1 h
        simp only [List.length_cons] at hlen
        exact List.eq_nil_of_length_eq_zero (by omega)
      subst hb
      constructor
      · intro b r'
        simp [ByteReader.next, h]
      · simp [ByteReader.next, h]

theorem byte_reader_single_request_witness :
    ((∀ b r', ByteReader.next fileRead [7] = (some b, r') ↔
        fileRead [7] 1 = .ok [b] r')
    ∧ ((ByteReader.next fileRead [7]).1 = none ↔
        (∃ r', fileRead [7] 1 = .err r')
        ∨ (∃ r', fileRead [7] 1 = .ok [] r'))) :=
  byte_reader_single_request fileRead fileRead_wf [7]

/-- C6. The buffered source's invariant
`0 <= offset <= remainder <= buffer length` holds after construction and is
preserved by every refill and every pull, provided each underlying read
returns at most as many bytes as requested (hence at most the buffer's
length). -/
theorem buffered_invariant {ρ : Type} (read : ρ → Nat → ReadResult ρ)
    (hwf : ReadWF read) :
    (∀ (inner : ρ) (buffer : List Nat),
      BufInv (BufferedReader.new inner buffer))
    ∧ (∀ s : BufState ρ, BufInv s →
        BufInv (BufferedReader.refill read s).2)
    ∧ (∀ s : BufState ρ, BufInv s →
        BufInv (BufferedReader.next read s).2) := by
  have hrefill : ∀ s : BufState ρ, BufInv s →
      BufInv (BufferedReader.refill read s).2 := by
    intro s hs
    unfold BufferedReader.refill
    split
    · exact hs
    · exact hs
    · rename_i b bs r' hread
      refine ⟨Nat.zero_le _, ?_⟩
      have hle := hwf s.inner s.buffer.length (b :: bs) r' hread
      simp only [List.length_append, List.length_drop]
      omega
  refine ⟨fun inner buffer => ⟨Nat.le_refl 0, Nat.zero_le _⟩, hrefill,
    fun s hs => ?_⟩
  unfold BufferedReader.next
  by_cases ho : s.offset = s.remainder
  · rw [if_pos ho]
    unfold BufferedReader.refill
    cases hread : read s.inner s.buffer.length with
    | err r' => exact hs
    | ok out r' =>
      cases out with
      | nil => exact hs
      | cons b bs =>
        have hle := hwf s.inner s.buffer.length (b :: bs) r' hread
        unfold BufferedReader.serve
        refine ⟨?_, ?_⟩
        · show 0 + 1 ≤ (b :: bs).length
          simp
        · show (b :: bs).length ≤
            ((b :: bs) ++ s.buffer.drop (b :: bs).length).length
          simp only [List.length_append, List.length_drop, List.length_cons]
          omega
  · rw [if_neg ho]
    unfold BufferedReader.serve
    refine ⟨?_, ?_⟩
    · show s.offset + 1 ≤ s.remainder
      have h1 := hs.1
      omega
    · exact hs.2

theorem buffered_invariant_witness :
    BufInv (BufferedReader.new ([3] : List Nat) [0])
    ∧ BufInv (BufferedReader.next fileRead
        (BufferedReader.new ([3] : List Nat) [0])).2 :=
  ⟨(buffered_invariant fileRead fileRead_wf).1 [3] [0],
    (buffered_invariant fileRead fileRead_wf).2.2 _
      ((buffered_invariant fileRead fileRead_wf).1 [3] [0])⟩

/-- C7. Empty input: zero bytes of content yield an empty token sequence
(`ok []`, no abort) under all three source kinds, including a zero-length
memory mapping. -/
theorem empty_input_empty_tokens (buf : List Nat) (hc : 1 ≤ buf.length) :
    lexAll (byteStream []) = .ok []
    ∧ lexAll (bufferedStream buf []) = .ok []
    ∧ lexAll (mmapStream []) = .ok [] := by
  rw [byteStream_eq, mmapStream_eq, bufferedStream_eq buf [] hc]
  have h : lexAll [] = .ok [] := lexAll_eos rfl
  exact ⟨h, h, h⟩

theorem empty_input_empty_tokens_witness :
    lexAll (byteStream []) = .ok []
    ∧ lexAll (bufferedStream [0] []) = .ok []
    ∧ lexAll (mmapStream []) = .ok [] :=
  empty_input_empty_tokens [0] (by decide)

/-- C8. Every byte sequence emitted in an `Identifier` token starts with a
letter or underscore, continues with letters, digits or underscores, is
entirely ASCII (below 128) and is therefore valid UTF-8 — so the unchecked
bytes-to-text conversion never produces invalid text. -/
theorem identifier_bytes_ascii (l s rest : List Nat)
    (h : Lexer.next l = (.tok (.Identifier s), rest)) :
    (∃ b t, s = b :: t ∧ isIdentStart b = true
      ∧ ∀ c ∈ t, isIdentCont c = true)
    ∧ (∀ c ∈ s, c < 128) ∧ validUtf8 s = true := by
  have hshape : ∃ b t, s = b :: t ∧ isIdentStart b = true
      ∧ ∀ c ∈ t, isIdentCont c = true := by
    induction l with
    | nil => simp [Lexer.next] at h
    | cons b bs ih =>
      simp only [Lexer.next] at h
      split at h
      · rename_i hb
        rw [spanLoop_eq] at h
        obtain ⟨hs, -⟩ :
            Token.Identifier (b :: bs.takeWhile isIdentCont) =
              Token.Identifier s
            ∧ bs.dropWhile isIdentCont = rest := by
          simpa [Prod.ext_iff] using h
        injection hs with hs'
        exact ⟨b, bs.takeWhile isIdentCont, hs'.symm, hb,
          fun c hc => List.mem_takeWhile_imp hc⟩
      · split at h
        · split at h <;> simp at h
        · split at h
          · exact ih h
          · simp at h
  obtain ⟨b, t, rfl, hb, ht⟩ := hshape
  have hlt : ∀ c ∈ b :: t, c < 128 := by
    intro c hc
    rcases List.mem_cons.mp hc with rfl | hct
    · exact identCont_lt_128 (identStart_identCont hb)
    · exact identCont_lt_128 (ht c hct)
  exact ⟨⟨b, t, rfl, hb, ht⟩, hlt, validUtf8_of_ascii _ hlt⟩

theorem identifier_bytes_ascii_witness :
    (∃ b t, ([97, 49] : List Nat) = b :: t ∧ isIdentStart b = true
      ∧ ∀ c ∈ t, isIdentCont c = true)
    ∧ (∀ c ∈ ([97, 49] : List Nat), c < 128)
    ∧ validUtf8 [97, 49] = true :=
  identifier_bytes_ascii [97, 49, 32] [97, 49] [32] (by decide)

/-- C10. Terminal states absorb: once `Lexer::next` returns `None` with
stream state `rest`, calling it again on `rest` returns `None` with the
state unchanged, and any number of further calls leaves the state fixed —
no byte is ever consumed past a terminal state. -/
theorem terminal_state_absorbing (l rest : List Nat)
    (h : Lexer.next l = (.eos, rest)) :
    Lexer.next rest = (.eos, rest)
    ∧ ∀ n : Nat, (fun s => (Lexer.next s).2)^[n] rest = rest := by
  have hstep := lexNext_eos_absorb h
  refine ⟨hstep, fun n => ?_⟩
  induction n with
  | zero => rfl
  | succ n ihn =>
    rw [Function.iterate_succ_apply', ihn, hstep]

theorem terminal_state_absorbing_witness :
    Lexer.next [64, 99] = (.eos, [64, 99])
    ∧ ∀ n : Nat, (fun s => (Lexer.next s).2)^[n] [64, 99] = [64, 99] :=
  terminal_state_absorbing [64, 99] [64, 99] (by decide)

end LexPerf
